import Mathlib

/-!
Verification development for the p-unzip parallel ZIP extractor.

The definitions below are a shallow embedding of the C++ sources:
  * `src/utils.cpp`        — `string_hash`
  * `src/unzip.cpp`        — `ext3`, the short-extension temp-name function,
                             the worker (`unzip_worker`) and the engine checks
  * `src/fs.cpp`/`fs.hpp`  — `FilePath`, `split_ext`, `mkdir_p`, `File::write`
  * `src/zip.cpp`          — `Zip::extract_to`, `ZipStat::folder`
  * `src/distribution.cpp` — the distribution strategies and their wrapper
Machine integers (`size_t`, `uint32_t`, `uint64_t`) are modelled as `Nat`,
with explicit `% 2^32` where the C++ arithmetic wraps (`string_hash`).
Fallible C++ code (the `FAIL`/`FAIL_` macros throw) is modelled with
`Except String`.
-/

namespace PUnzip

/-! ## Basic utilities (src/utils.cpp, src/utils.hpp) -/

/-- Wrap a natural number to 32 bits, the way `uint32_t` arithmetic wraps. -/
def u32 (n : Nat) : Nat := n % 4294967296

/-- Loop of `string_hash` (src/utils.cpp lines 19-26):
`hash = (hash * 54059) ^ (uint32_t(c) * 76963)` over the characters. -/
def string_hash_chars : List Char → Nat → Nat
  | [], h => h
  | c :: cs, h => string_hash_chars cs (Nat.xor (u32 (h * 54059)) (u32 (c.toNat * 76963)))

/-- `string_hash` (src/utils.cpp): 32-bit FNV-like mix starting from 37. -/
def string_hash (s : String) : Nat := string_hash_chars s.toList 37

/-- The character set used for generated extensions (src/unzip.cpp line 222). -/
def ext_cs : List Char := "abcdefghijklmnopqrstuvwxyz0123456789".toList

/-- `ext3` (src/unzip.cpp lines 218-229): three characters selected by bytes
`h`, `h>>8`, `h>>16` of the hash, each taken modulo 36. -/
def ext3 (s : String) : String :=
  let h := string_hash s
  String.mk [ext_cs.getD (h % 36) 'a',
             ext_cs.getD (h / 256 % 36) 'a',
             ext_cs.getD (h / 65536 % 36) 'a']

/-- Character-wise lexicographic `<` on character lists, mirroring
`std::string::operator<`. -/
def charsLt : List Char → List Char → Bool
  | [], [] => false
  | [], _ :: _ => true
  | _ :: _, [] => false
  | a :: as, b :: bs =>
    if a.toNat < b.toNat then true
    else if b.toNat < a.toNat then false
    else charsLt as bs

/-- `std::string` comparison used to sort by entry name. -/
def strLt (a b : String) : Bool := charsLt a.toList b.toList

/-- `starts_with` (src/utils.hpp lines 43-45). -/
def starts_with (s : String) (c : Char) : Bool :=
  match s.toList with
  | [] => false
  | x :: _ => x = c

/-- `ends_with` (src/utils.hpp lines 48-50). -/
def ends_with (s : String) (c : Char) : Bool :=
  match s.toList.getLast? with
  | some x => x = c
  | none => false

/-! ## FilePath (src/fs.cpp lines 129-263, src/fs.hpp)

A `FilePath` is its vector of components. -/

abbrev FP := List String

/-- The splitting loop of the `FilePath` constructor (src/fs.cpp lines
146-156): split on `'/'`, dropping empty components. The second argument is
the current component accumulated in reverse. -/
def splitSlash : List Char → List Char → List String
  | [], acc => if acc.isEmpty then [] else [String.mk acc.reverse]
  | c :: cs, acc =>
    if c = '/' then
      (if acc.isEmpty then splitSlash cs [] else String.mk acc.reverse :: splitSlash cs [])
    else splitSlash cs (c :: acc)

/-- `FilePath::FilePath(string)` (src/fs.cpp lines 135-158): empty input is a
valid empty path; fails on a leading `'/'`, a `':'` or a `'\'`. -/
def mkFilePath (path : String) : Except String FP :=
  if path = "" then .ok []
  else if starts_with path '/' then .error "Rooted path not supported"
  else if path.toList.contains ':' then .error "Rooted path not supported"
  else if path.toList.contains '\\' then .error "backslashes in path are not supported"
  else .ok (splitSlash path.toList [])

/-- `FilePath::str()` (src/fs.cpp lines 173-181): components joined by `'/'`,
no leading or trailing slash. -/
def pathStr (fp : FP) : String := String.intercalate "/" fp

/-- `FilePath::dirname()` (src/fs.cpp lines 189-195): drops the last
component; throws on an empty path. -/
def fpDirname (fp : FP) : Except String FP :=
  if fp = [] then .error "no more parent folders in dirname" else .ok fp.dropLast

/-- `FilePath::basename()` (src/fs.cpp lines 199-202): the last component;
throws on an empty path. -/
def fpBasename (fp : FP) : Except String String :=
  match fp.getLast? with
  | some b => .ok b
  | none => .error "cannot call basename on empty path"

/-- `FilePath::add_ext` (src/fs.cpp lines 206-213): appends `ext` verbatim to
the last component, creating one if the path is empty. -/
def fpAddExt : FP → String → FP
  | [], ext => ["" ++ ext]
  | [x], ext => [x ++ ext]
  | x :: y :: xs, ext => x :: fpAddExt (y :: xs) ext

/-- Helper for the string-level `split_ext`: splits a character list at its
last `'.'`, which is removed. -/
def splitLastDot : List Char → Option (List Char × List Char)
  | [] => none
  | c :: cs =>
    match splitLastDot cs with
    | some (l, r) => some (c :: l, r)
    | none => if c = '.' then some ([], cs) else none

/-- `split_ext(string)` (src/fs.cpp lines 255-263): split on the last dot,
the dot appearing in neither part; `none` when there is no dot. -/
def split_ext_s (s : String) : Option (String × String) :=
  match splitLastDot s.toList with
  | some (l, r) => some (String.mk l, String.mk r)
  | none => none

/-- `split_ext(FilePath)` (src/fs.cpp lines 221-232): only considers the last
component; the first returned path keeps the trailing dot on the stem. -/
def split_ext_fp (fp : FP) : Option (FP × FP) :=
  match fp.getLast? with
  | none => none
  | some b =>
    match split_ext_s b with
    | none => none
    | some (stem, ext) =>
      some (fp.dropLast ++ splitSlash (stem ++ ".").toList [],
            splitSlash ext.toList [])

/-! ## Entry stats (src/zip.cpp lines 118-172) -/

/-- The cached per-entry stat record (`ZipStat`), with the fields the core
consumes; all fields are modelled as valid. -/
structure ZipStatR where
  index : Nat
  name : String
  size : Nat
  mtime : Nat
deriving Repr, DecidableEq

/-- `ZipStat::is_folder()` (src/zip.cpp lines 159-161): name ends in `'/'`. -/
def zsIsFolder (zs : ZipStatR) : Bool := ends_with zs.name '/'

/-- `ZipStat::folder()` (src/zip.cpp lines 166-171): the name itself for a
folder entry, else its dirname. -/
def zsFolder (zs : ZipStatR) : Except String FP := do
  let fp ← mkFilePath zs.name
  if zsIsFolder zs then pure fp else fpDirname fp

/-! ## Sorting

`std::sort` with a strict comparator produces a sorted permutation of its
input; it is modelled by an insertion sort parameterized by the
corresponding non-strict test. -/

/-- Insert one element into a list sorted by `le`. -/
def insertBy (le : α → α → Bool) (x : α) : List α → List α
  | [] => [x]
  | y :: ys => if le x y then x :: y :: ys else y :: insertBy le x ys

/-- Insertion sort by `le`; stands in for `std::sort`. -/
def sortBy (le : α → α → Bool) : List α → List α
  | [] => []
  | x :: xs => insertBy le x (sortBy le xs)

/-- The `by_name` comparator of `distribution_sliced` (src/distribution.cpp
lines 93-95), as a non-strict test. -/
def by_name_le (l r : ZipStatR) : Bool := !(strLt r.name l.name)

/-- The `by_size` descending comparator of `distribution_bytes` and
`distribution_runtime` (src/distribution.cpp lines 141-143), as a
non-strict test. -/
def by_size_desc_le (l r : ZipStatR) : Bool := Nat.ble r.size l.size

/-! ## Distribution strategies (src/distribution.cpp) -/

/-- A per-worker assignment: one list of archive indices per thread. -/
abbrev Bkts := List (List Nat)

/-- `thread_idxs[i].push_back`/`insert` with the bounds check that C++
vector indexing presupposes. -/
def bpush (b : Bkts) (i : Nat) (vs : List Nat) : Except String Bkts :=
  if i < b.length then .ok (b.set i (b.getD i [] ++ vs))
  else .error "bucket index out of range"

/-- Loop of `distribution_cyclic` (src/distribution.cpp lines 70-74): the
`k`th file goes to thread `k % threads`. -/
def cyclic_go (threads : Nat) : List ZipStatR → Nat → Bkts → Except String Bkts
  | [], _, b => .ok b
  | zs :: rest, count, b => do
    let b1 ← bpush b (count % threads) [zs.index]
    cyclic_go threads rest (count + 1) b1

/-- `distribution_cyclic` (src/distribution.cpp lines 68-75). -/
def distribution_cyclic (threads : Nat) (files : List ZipStatR) : Except String Bkts :=
  cyclic_go threads files 0 (List.replicate threads [])

/-- Loop of `distribution_sliced` (src/distribution.cpp lines 112-122),
including its `FAIL_( where >= threads )` check. -/
def sliced_go (threads chunk slicedEnd : Nat) :
    List ZipStatR → Nat → Bkts → Except String Bkts
  | [], _, b => .ok b
  | zs :: rest, count, b =>
    let whr := if count < slicedEnd then count / chunk else count % threads
    if threads ≤ whr then .error "where >= threads"
    else do
      let b1 ← bpush b whr [zs.index]
      sliced_go threads chunk slicedEnd rest (count + 1) b1

/-- `distribution_sliced` (src/distribution.cpp lines 85-124): sort by name,
`chunk = max(size/threads, 1)`, the first `size - size % threads` files go
to thread `k / chunk`, the residual tail cyclically; with the function's
four `FAIL_` sanity checks. -/
def distribution_sliced (threads : Nat) (files : List ZipStatR) : Except String Bkts :=
  let stats := sortBy by_name_le files
  let chunk := max (stats.length / threads) 1
  let residual := stats.length % threads
  let slicedEnd := stats.length - residual
  if chunk < 1 then .error "chunk < 1"
  else if stats.length < chunk then .error "chunk > stats.size()"
  else if threads < residual then .error "residual > threads"
  else if stats.length < slicedEnd then .error "sliced_end > stats.size()"
  else sliced_go threads chunk slicedEnd stats 0 (List.replicate threads [])

/-- Minimum value of a list of naturals (empty list is irrelevant: the C++
code only queries nonempty `totals`). -/
def list_min : List Nat → Nat
  | [] => 0
  | [x] => x
  | x :: y :: ys => min x (list_min (y :: ys))

/-- Index returned by `std::min_element`: the first position holding the
minimum (ties keep the lowest index). -/
def min_idx : List Nat → Nat
  | [] => 0
  | [_] => 0
  | x :: y :: ys => if x ≤ list_min (y :: ys) then 0 else min_idx (y :: ys) + 1

/-- The shared greedy loop of `distribution_bytes`, `distribution_runtime`
and `distribution_folder_runtime` (src/distribution.cpp lines 150-156,
189-196, 253-261): each item (its index list paired with its weight) goes to
the thread with the least running total, which is then increased by the
weight; with the `FAIL_( where >= threads )` check. -/
def greedy_go (threads : Nat) :
    List (List Nat × Nat) → Bkts → List Nat → Except String Bkts
  | [], b, _ => .ok b
  | (idxs, w) :: rest, b, totals =>
    let whr := min_idx totals
    if threads ≤ whr then .error "where >= threads"
    else do
      let b1 ← bpush b whr idxs
      greedy_go threads rest b1 (totals.set whr (totals.getD whr 0 + w))

/-- `distribution_bytes` (src/distribution.cpp lines 134-158): sort by size
descending, then greedily balance total bytes. -/
def distribution_bytes (threads : Nat) (files : List ZipStatR) : Except String Bkts :=
  let stats := sortBy by_size_desc_le files
  greedy_go threads (stats.map (fun zs => ([zs.index], zs.size)))
    (List.replicate threads []) (List.replicate threads 0)

/-- The per-file weight of the `runtime` strategy (src/distribution.cpp
lines 173-174, 194-195): `size_weight * size + file_weight * 1`. -/
def runtime_weight (zs : ZipStatR) : Nat := 1 * zs.size + 5000000 * 1

/-- `distribution_runtime` (src/distribution.cpp lines 171-198): like
`bytes` but weighting each file by `runtime_weight`. -/
def distribution_runtime (threads : Nat) (files : List ZipStatR) : Except String Bkts :=
  let stats := sortBy by_size_desc_le files
  greedy_go threads (stats.map (fun zs => ([zs.index], runtime_weight zs)))
    (List.replicate threads []) (List.replicate threads 0)

/-- The per-folder record `Data` of `distribution_folder_runtime`
(src/distribution.cpp lines 218-231). -/
structure FolderData where
  idxs : List Nat
  metric : Nat
deriving Repr, DecidableEq

/-- `Data::add` (src/distribution.cpp lines 221-227). -/
def fdAdd (d : FolderData) (zs : ZipStatR) : FolderData :=
  { idxs := d.idxs ++ [zs.index], metric := d.metric + (1 * zs.size + 5000000 * 1) }

/-- `FilePath::operator<` (src/fs.hpp lines 84-86): lexicographic comparison
of the component vectors. -/
def fpLt : FP → FP → Bool
  | [], [] => false
  | [], _ :: _ => true
  | _ :: _, [] => false
  | a :: as, b :: bs =>
    if strLt a b then true else if strLt b a then false else fpLt as bs

/-- `folder_map[zs.folder()].add( zs )`: ordered-map insertion into the
association list sorted by `fpLt`, default-constructing a `Data` for an
absent key. -/
def mapAdd : List (FP × FolderData) → FP → ZipStatR → List (FP × FolderData)
  | [], k, zs => [(k, fdAdd ⟨[], 0⟩ zs)]
  | (k1, d) :: rest, k, zs =>
    if fpLt k k1 then (k, fdAdd ⟨[], 0⟩ zs) :: (k1, d) :: rest
    else if k = k1 then (k1, fdAdd d zs) :: rest
    else (k1, d) :: mapAdd rest k zs

/-- The folder aggregation loop of `distribution_folder_runtime`
(src/distribution.cpp lines 234-236). `zs.folder()` can throw, so the fold
is in `Except`. -/
def buildFolderMap : List ZipStatR → List (FP × FolderData) → Except String (List (FP × FolderData))
  | [], m => .ok m
  | zs :: rest, m => do
    let f ← zsFolder zs
    buildFolderMap rest (mapAdd m f zs)

/-- The `by_metric` descending comparator (src/distribution.cpp lines
243-245), as a non-strict test. -/
def by_metric_desc_le (l r : FolderData) : Bool := Nat.ble r.metric l.metric

/-- `distribution_folder_runtime` (src/distribution.cpp lines 213-266):
group files by folder, sort folders by metric descending, then greedily
hand each whole folder to the thread with the least total metric. -/
def distribution_folder_runtime (threads : Nat) (files : List ZipStatR) :
    Except String Bkts := do
  let m ← buildFolderMap files []
  let sorted := sortBy by_metric_desc_le (m.map Prod.snd)
  greedy_go threads (sorted.map (fun d => (d.idxs, d.metric)))
    (List.replicate threads []) (List.replicate threads 0)

/-! ## The wrapper and the registry (src/distribution.cpp lines 17-55) -/

/-- The duplicate-index scan of the wrapper (src/distribution.cpp lines
47-53): walk the emitted indices keeping the set of those already seen. -/
def check_dups : List Nat → List Nat → Except String Unit
  | _, [] => .ok ()
  | seen, x :: xs =>
    if x ∈ seen then .error "duplicate index" else check_dups (x :: seen) xs

/-- `wrapper` (src/distribution.cpp lines 34-55): run the strategy, then
fail unless the total emitted count equals `files.size()` and no index
appears twice. -/
def wrapper (threads : Nat) (files : List ZipStatR)
    (func : Nat → List ZipStatR → Except String Bkts) : Except String Bkts := do
  let thread_idxs ← func threads files
  let count := (thread_idxs.map List.length).sum
  if count ≠ files.length then .error "count != files.size()"
  else do
    let _ ← check_dups [] thread_idxs.flatten
    pure thread_idxs

abbrev StratFn := Nat → List ZipStatR → Except String Bkts

/-- The `WRAP( cyclic )` closure registered by `STRATEGY( cyclic )`. -/
def wrap_cyclic : StratFn := fun t f => wrapper t f distribution_cyclic

/-- The `WRAP( sliced )` closure registered by `STRATEGY( sliced )`. -/
def wrap_sliced : StratFn := fun t f => wrapper t f distribution_sliced

/-- The `WRAP( bytes )` closure registered by `STRATEGY( bytes )`. -/
def wrap_bytes : StratFn := fun t f => wrapper t f distribution_bytes

/-- The `WRAP( runtime )` closure registered by `STRATEGY( runtime )`. -/
def wrap_runtime : StratFn := fun t f => wrapper t f distribution_runtime

/-- The `WRAP( folder_runtime )` closure registered by
`STRATEGY( folder_runtime )`. -/
def wrap_folder_runtime : StratFn := fun t f => wrapper t f distribution_folder_runtime

/-- The process-wide registry `distribute` (src/distribution.cpp line 29),
an ordered map keyed by the strategy name; exactly the five `STRATEGY`
registrations of src/distribution.cpp appear, in key order. -/
def distribute : List (String × StratFn) :=
  [("bytes", wrap_bytes), ("cyclic", wrap_cyclic),
   ("folder_runtime", wrap_folder_runtime), ("runtime", wrap_runtime),
   ("sliced", wrap_sliced)]

/-- `has_key( distribute, strategy )` as used by src/unzip.cpp line 360 and
src/main.cpp line 244. -/
def distribute_has_key (k : String) : Bool :=
  (distribute.find? (fun p => p.1 == k)).isSome

/-- The strategy names promised by the usage text (src/usage.hpp lines
32-35): "Can be: cyclic, sliced, bytes, folder_bytes, or folder_files." -/
def usage_strategies : List String :=
  ["cyclic", "sliced", "bytes", "folder_bytes", "folder_files"]

/-! ### The spec's wording of the bytes strategy, for refinement

The spec describes `bytes` as: sort by size descending, keep per-worker
running totals, assign each file to `argmin(totals)` with ties broken by
the lowest worker index, then add its size to that total. The definitions
below follow that wording; the refinement theorem compares them with
`distribution_bytes` as embedded from the source. -/

/-- The spec's `argmin(totals)`: the first (lowest) index holding the
minimum total. -/
def argmin_spec (t : List Nat) : Nat := t.findIdx (fun v => v == list_min t)

/-- The spec's greedy loop over `(index, size)` pairs, returning the
per-worker index lists together with the final running totals. -/
def bytes_spec_go : List (Nat × Nat) → Bkts → List Nat → Bkts × List Nat
  | [], b, t => (b, t)
  | (i, sz) :: rest, b, t =>
    bytes_spec_go rest
      (b.set (argmin_spec t) (b.getD (argmin_spec t) [] ++ [i]))
      (t.set (argmin_spec t) (t.getD (argmin_spec t) 0 + sz))

/-- The spec's wording of the whole `bytes` strategy. -/
def bytes_spec (J : Nat) (files : List ZipStatR) : Bkts × List Nat :=
  bytes_spec_go ((sortBy by_size_desc_le files).map (fun zs => (zs.index, zs.size)))
    (List.replicate J []) (List.replicate J 0)

/-! ## The short-extension temp-name function (src/unzip.cpp lines 319-337)

The closure installed by `p_unzip` when `short_exts` is on. It can throw
(through the `FilePath` constructor) on names that are not valid relative
paths, hence the `Except`. -/

/-- The `short_exts` temp-name closure: `split_ext` the path; if there is no
extension return the input; rename only when the stem-with-dot is not `"."`
and the extension is longer than three characters. -/
def get_tmp_name_se (input : String) : Except String String := do
  let fp ← mkFilePath input
  match split_ext_fp fp with
  | none => pure input
  | some (fst, snd) => do
    let sndS := pathStr snd
    let b ← fpBasename fst
    if b ≠ "." ∧ sndS.length > 3 then
      pure (pathStr (fpAddExt fst (ext3 sndS)))
    else
      pure input

/-! ## The engine's chunk-size step (src/unzip.cpp lines 266-281)

`p_unzip` partitions the cached stats into folders and files and then
checks the chunk size. The check is
`FAIL( chunk_size < 1, "Invalid chunk size: " ... )`: it inspects only the
supplied `chunk_size`, never the entry sizes, and performs no
substitution. -/

/-- The folder/file partition of `p_unzip` (src/unzip.cpp lines 268-272):
`std::partition` is unstable but puts exactly the folder entries first. -/
def partition_stats (stats : List ZipStatR) : List ZipStatR × List ZipStatR :=
  (stats.filter (fun zs => zsIsFolder zs), stats.filter (fun zs => !zsIsFolder zs))

/-- The chunk-size step of `p_unzip` (src/unzip.cpp lines 278-281): fail
whenever `chunk_size < 1`, regardless of the archive's entries; otherwise
the supplied value is used unchanged as `chunk_size_used`. -/
def p_unzip_chunk_step (chunk_size : Nat) (stats : List ZipStatR) : Except String Nat :=
  let _files := (partition_stats stats).2
  if chunk_size < 1 then .error "Invalid chunk size" else .ok chunk_size

/-! ## `Zip::extract_to` (src/zip.cpp lines 47-83)

The interaction with the codec and the filesystem is modelled by an
explicit trace of operations plus two oracles: `reads` is the sequence of
results successive `zip_fread` calls will return (after the list is
exhausted the codec reports 0 = EOF), and `writes` the byte counts the
successive `fwrite` calls actually write. -/

/-- One observable operation of `extract_to`. -/
inductive XOp where
  | openFile (name : String)
  | openEntry
  | readE (r : Int)
  | writeF (n : Nat)
  | closeEntry
deriving Repr, DecidableEq

/-- The read/write loop of `extract_to` (src/zip.cpp lines 59-74), together
with `File::write` (src/fs.cpp lines 116-124): a read result `≤ 0` exits the
loop; a positive read is written, and `File::write` throws if the count
exceeds the buffer size or if fewer bytes were written. -/
def extract_loop (bufSize : Nat) :
    List Int → List Nat → Int → List XOp → List XOp × Except String Int
  | [], _, total, ops => (ops ++ [XOp.readE 0], .ok total)
  | r :: rs, ws, total, ops =>
    let ops1 := ops ++ [XOp.readE r]
    if r ≤ 0 then (ops1, .ok total)
    else if bufSize < r.toNat then (ops1, .error "count > buffer size")
    else
      let w := ws.headD 0
      let ops2 := ops1 ++ [XOp.writeF w]
      if w ≠ r.toNat then (ops2, .error "failed to write all bytes")
      else extract_loop bufSize rs ws.tail (total + r) ops2

/-- `Zip::extract_to` (src/zip.cpp lines 47-83): fails up front on an empty
scratch buffer; opens the destination, opens the entry, runs the loop;
on normal loop exit closes the entry handle and then fails unless the
accumulated total equals the reported size. A failure *inside* the loop
propagates as the C++ exception does: before `zip_fclose` is reached. -/
def extract_to (bufSize : Nat) (dest : String) (fsize : Int)
    (reads : List Int) (writes : List Nat) : List XOp × Except String Unit :=
  if bufSize = 0 then ([], .error "buf.size() == 0")
  else
    let ops0 := [XOp.openFile dest, XOp.openEntry]
    match extract_loop bufSize reads writes 0 ops0 with
    | (ops1, .error e) => (ops1, .error e)
    | (ops1, .ok total) =>
      (ops1 ++ [XOp.closeEntry],
       if total ≠ fsize then .error "total != fsize" else .ok ())

/-! ## The worker and the engine's join check (src/unzip.cpp 20-42, 57-132,
395-402)

Filesystem and codec outcomes inside a worker are abstracted per entry. -/

/-- Per-entry data plus the oracle outcomes of its processing steps. -/
structure EntryO where
  name : String
  size : Nat
  mtime : Nat
  extract_ok : Bool
  rename_ok : Bool
  ts_ok : Bool
deriving Repr, DecidableEq

/-- `thread_output` (src/unzip.cpp lines 20-42) plus a flag recording that
the worker's "unzip" stopwatch was stopped. -/
structure ThreadOutput where
  files : Nat
  bytes : Nat
  tmp_files : Nat
  ret : Bool
  watch_stopped : Bool
deriving Repr, DecidableEq

/-- The `thread_output` constructor: counters zero, `ret` defaults to
false. -/
def init_output : ThreadOutput :=
  { files := 0, bytes := 0, tmp_files := 0, ret := false, watch_stopped := false }

/-- The per-entry body of the worker loop (src/unzip.cpp lines 84-126) after
the temp-name bookkeeping: `extract_to`, `rename_file`, and, when the
transformed timestamp is nonzero, `set_timestamp`; the first failing step
throws. -/
def process_entry (ts_xform : Nat → Nat) (e : EntryO) : Except String Unit :=
  if e.extract_ok = false then .error "extract_to failed"
  else if e.rename_ok = false then .error "rename_file failed"
  else if ts_xform e.mtime ≠ 0 ∧ e.ts_ok = false then .error "set_timestamp failed"
  else .ok ()

/-- The worker loop: per entry, count a temp name when the temp-name
function changes the name, run the entry body, and on success update the
`files`/`bytes` counters; the first failure ends the loop with `ret` still
false. After the full loop `ret` is set to true. -/
def worker_go (ts_xform : Nat → Nat) (tmp_name : String → String) :
    List EntryO → ThreadOutput → ThreadOutput
  | [], acc => { acc with ret := true }
  | e :: rest, acc =>
    let acc1 := { acc with
      tmp_files := acc.tmp_files + (if tmp_name e.name = e.name then 0 else 1) }
    match process_entry ts_xform e with
    | .error _ => acc1
    | .ok _ =>
      worker_go ts_xform tmp_name rest
        { acc1 with files := acc1.files + 1, bytes := acc1.bytes + e.size }

/-- `unzip_worker` (src/unzip.cpp lines 57-132): everything runs inside
`TRY ... CATCH_ALL`, so no failure leaves the thread; `setup_ok` abstracts
the pre-loop steps (constructing the thread's own `Zip`, allocating the
scratch buffer); the stopwatch is stopped after the catch, on every path. -/
def unzip_worker (setup_ok : Bool) (ts_xform : Nat → Nat)
    (tmp_name : String → String) (entries : List EntryO) : ThreadOutput :=
  let r := if setup_ok then worker_go ts_xform tmp_name entries init_output
           else init_output
  { r with watch_stopped := true }

/-- The engine's post-join check (src/unzip.cpp lines 401-402):
`for i: FAIL_( !outputs[i].ret )`. -/
def join_check : List ThreadOutput → Except String Unit
  | [] => .ok ()
  | o :: rest => if o.ret = false then .error "worker returned failure" else join_check rest

/-! ## `mkdir_p` (src/fs.cpp lines 275-306)

The filesystem is modelled as an association list from existing paths to
an is-folder flag; the operations performed are recorded in a trace. -/

/-- One filesystem call made by `mkdir_p`. -/
inductive DOp where
  | statQ (p : FP)
  | createF (p : FP)
deriving Repr, DecidableEq

/-- The modelled on-disk state: the paths that exist, each with its
is-folder flag. -/
abbrev Disk := List (FP × Bool)

/-- `stat` (src/fs.cpp lines 49-66) restricted to what `mkdir_p` consumes:
`none` = does not exist, `some b` = exists with is-folder flag `b`. -/
def fsStat (fs : Disk) (p : FP) : Option Bool :=
  (fs.find? (fun q => q.1 == p)).map Prod.snd

/-- `mkdir_p( set<FilePath>& cache, FilePath const& path )` (src/fs.cpp
lines 275-288): returns immediately on the empty path or a cached path;
otherwise recursively ensures the parent, caches the path, stats it,
succeeds if it is an existing folder, fails if it exists as a non-folder,
and creates it otherwise. Returns the new cache, the new disk state and
the trace of filesystem calls. -/
def mkdir_p_go (cache : List FP) (path : FP) (fs : Disk) :
    Except String (List FP × Disk × List DOp) :=
  if path = [] ∨ path ∈ cache then .ok (cache, fs, [])
  else
    match mkdir_p_go cache path.dropLast fs with
    | .error e => .error e
    | .ok (c1, fs1, ops1) =>
      let c2 := path :: c1
      match fsStat fs1 path with
      | some true => .ok (c2, fs1, ops1 ++ [DOp.statQ path])
      | some false => .error "Path exists but is not a folder"
      | none => .ok (c2, (path, true) :: fs1, ops1 ++ [DOp.statQ path, DOp.createF path])
termination_by path.length
decreasing_by
  rename_i h
  rcases path with _ | ⟨x, xs⟩
  · exact absurd (Or.inl rfl) h
  · simp [List.length_dropLast]

/-- `mkdir_p( FilePath const& )` (src/fs.cpp lines 294-297): the
single-path entry point starts from an empty cache. -/
def mkdir_p (path : FP) (fs : Disk) : Except String (List FP × Disk × List DOp) :=
  mkdir_p_go [] path fs

/-- `mkdirs_p` (src/fs.cpp lines 302-306): fold `mkdir_p_go` over the paths
with a shared cache, accumulating the trace. -/
def mkdirs_p_go (paths : List FP) (cache : List FP) (fs : Disk) (ops : List DOp) :
    Except String (List FP × Disk × List DOp) :=
  match paths with
  | [] => .ok (cache, fs, ops)
  | p :: rest =>
    match mkdir_p_go cache p fs with
    | .error e => .error e
    | .ok (c1, fs1, ops1) => mkdirs_p_go rest c1 fs1 (ops ++ ops1)

/-! ## Decidable equality of `Except` results, for concrete evaluations -/

instance exceptDecEq {ε α : Type} [DecidableEq ε] [DecidableEq α] :
    DecidableEq (Except ε α) := by
  intro a b
  cases a <;> cases b
  case error.error x y =>
    exact if h : x = y then .isTrue (by rw [h])
          else .isFalse (by intro hc; cases hc; exact h rfl)
  case error.ok x y => exact .isFalse (by intro hc; cases hc)
  case ok.error x y => exact .isFalse (by intro hc; cases hc)
  case ok.ok x y =>
    exact if h : x = y then .isTrue (by rw [h])
          else .isFalse (by intro hc; cases hc; exact h rfl)

end PUnzip

namespace PUnzip

/-! # Theorems

One theorem per claim of the specification, with supporting lemmas. -/

/-! ## C2 — the chunk-size step of `p_unzip` -/

/-- C2: when the caller supplies `chunk_size = 0`, `p_unzip` does *not*
substitute the maximum uncompressed entry size: it fails unconditionally
with "Invalid chunk size", for every archive — including an archive whose
only entry has size 0, where the claim says the call must succeed. -/
theorem p_unzip_chunk_zero_always_fails :
    (∀ stats : List ZipStatR, p_unzip_chunk_step 0 stats = .error "Invalid chunk size")
    ∧ p_unzip_chunk_step 0 [⟨0, "empty.txt", 0, 0⟩] = .error "Invalid chunk size" :=
  ⟨fun _ => rfl, rfl⟩

/-! ## C3 — the registry does not contain `folder_files` / `folder_bytes` -/

/-- C3: the usage text promises strategies named "folder_files" and
"folder_bytes", but the process-wide registry populated by the `STRATEGY`
registrations contains neither — its keys are exactly `bytes`, `cyclic`,
`folder_runtime`, `runtime`, `sliced` — so `-d folder_files` and
`-d folder_bytes` hit the unknown-strategy fatal error. -/
theorem registry_lacks_folder_files_and_bytes :
    distribute_has_key "folder_files" = false
    ∧ distribute_has_key "folder_bytes" = false
    ∧ "folder_files" ∈ usage_strategies
    ∧ "folder_bytes" ∈ usage_strategies
    ∧ distribute.map Prod.fst = ["bytes", "cyclic", "folder_runtime", "runtime", "sliced"] :=
  ⟨rfl, rfl, by decide, by decide, rfl⟩

/-! ## C9 — `extract_to` rejects an empty scratch buffer up front -/

/-- C9: with a zero-size scratch buffer, `extract_to` fails immediately:
the trace is empty — the destination file is never opened, the entry is
never opened, and the read loop is never entered — so a zero-size chunk
buffer can never cause an endless loop of zero-byte reads. -/
theorem extract_to_empty_buffer_fails_first :
    ∀ (dest : String) (fsize : Int) (reads : List Int) (writes : List Nat),
      extract_to 0 dest fsize reads writes = ([], .error "buf.size() == 0") :=
  fun _ _ _ _ => rfl

/-! ## C5 — `extract_to` and the entry handle on a failing write -/

/-- C5: evaluation of `extract_to` at the failing input: scratch size 4,
entry of reported size 2, a first read returning 2 bytes, and an `fwrite`
that reports only 1 byte written. `File::write` throws inside the loop and
the trace ends *without* `closeEntry`: the entry handle is not closed
before the failure propagates. By contrast, on the read-error path
(read returns -1) the handle is closed before the final size check. -/
theorem extract_to_write_failure_skips_close :
    extract_to 4 "dest" 2 [2] [1]
      = ([XOp.openFile "dest", XOp.openEntry, XOp.readE 2, XOp.writeF 1],
         .error "failed to write all bytes")
    ∧ XOp.closeEntry ∉ (extract_to 4 "dest" 2 [2] [1]).1
    ∧ extract_to 4 "dest" 2 [-1] []
      = ([XOp.openFile "dest", XOp.openEntry, XOp.readE (-1), XOp.closeEntry],
         .error "total != fsize") :=
  ⟨rfl, by decide, rfl⟩

/-! ## C6 — worker result flags and the engine's join check -/

/-- The entry body succeeds exactly when extraction and rename succeed and,
whenever the transformed timestamp is nonzero, setting it succeeds. -/
theorem process_entry_ok_iff (tsx : Nat → Nat) (e : EntryO) :
    process_entry tsx e = .ok () ↔
      (e.extract_ok = true ∧ e.rename_ok = true ∧ (tsx e.mtime ≠ 0 → e.ts_ok = true)) := by
  cases hx : e.extract_ok <;> cases hr : e.rename_ok <;> cases ht : e.ts_ok <;>
    by_cases hm : tsx e.mtime = 0 <;>
      simp [process_entry, hx, hr, ht, hm]

/-- The worker loop turns `ret` true exactly when every entry's steps all
succeed, provided `ret` was false on entry (as `thread_output`'s
constructor guarantees). -/
theorem worker_go_ret (tsx : Nat → Nat) (tmp : String → String) :
    ∀ (entries : List EntryO) (acc : ThreadOutput), acc.ret = false →
      ((worker_go tsx tmp entries acc).ret = true ↔
        ∀ e ∈ entries,
          (e.extract_ok = true ∧ e.rename_ok = true ∧ (tsx e.mtime ≠ 0 → e.ts_ok = true))) := by
  intro entries
  induction entries with
  | nil => intro acc _; simp [worker_go]
  | cons e rest ih =>
    intro acc hacc
    rw [List.forall_mem_cons, ← process_entry_ok_iff tsx e]
    cases hp : process_entry tsx e with
    | error err =>
      simp only [worker_go, hp]
      constructor
      · intro hret; exact absurd hret (by simp [hacc])
      · rintro ⟨he, -⟩; cases he
    | ok u =>
      cases u
      simp only [worker_go, hp]
      exact Iff.trans (ih _ hacc) (by simp)

/-- C6: a worker's `ret` starts false and the worker function (a total
function: every failure is absorbed at the thread boundary) returns `ret =
true` exactly when its setup and each assigned entry's extract, rename and
timestamp steps succeeded; the worker's "unzip" stopwatch is stopped on
every path; and the engine's post-join check succeeds exactly when every
worker's `ret` is true. -/
theorem worker_ret_and_join_check :
    init_output.ret = false
    ∧ (∀ (setup_ok : Bool) (tsx : Nat → Nat) (tmp : String → String) (entries : List EntryO),
        (unzip_worker setup_ok tsx tmp entries).ret = true ↔
          (setup_ok = true ∧ ∀ e ∈ entries,
            (e.extract_ok = true ∧ e.rename_ok = true ∧ (tsx e.mtime ≠ 0 → e.ts_ok = true))))
    ∧ (∀ (setup_ok : Bool) (tsx : Nat → Nat) (tmp : String → String) (entries : List EntryO),
        (unzip_worker setup_ok tsx tmp entries).watch_stopped = true)
    ∧ (∀ outs : List ThreadOutput,
        join_check outs = .ok () ↔ ∀ o ∈ outs, o.ret = true) := by
  refine ⟨rfl, ?_, ?_, ?_⟩
  · intro setup_ok tsx tmp entries
    cases setup_ok with
    | false => simp [unzip_worker, init_output]
    | true =>
      simpa [unzip_worker] using worker_go_ret tsx tmp entries init_output rfl
  · intro setup_ok tsx tmp entries
    cases setup_ok <;> rfl
  · intro outs
    induction outs with
    | nil => simp [join_check]
    | cons o rest ih =>
      cases h : o.ret with
      | false => simp [join_check, h]
      | true => simp [join_check, h, ih]

/-! ## C10 — `mkdir_p` on the empty path, and root-level file entries -/

/-- C10: `mkdir_p` applied to the empty path returns successfully at once:
the cache and the disk state are unchanged and the trace of filesystem
calls is empty. The `folder()` of a file entry whose name is a single
component is the empty path, so pre-creating the directory tree is a no-op
for such entries and never fails on them. -/
theorem mkdir_p_empty_is_noop :
    (∀ (cache : List FP) (fs : Disk), mkdir_p_go cache [] fs = .ok (cache, fs, []))
    ∧ (∀ fs : Disk, mkdir_p [] fs = .ok ([], fs, []))
    ∧ (∀ (zs : ZipStatR) (x : String), mkFilePath zs.name = .ok [x] →
        zsIsFolder zs = false →
        zsFolder zs = .ok [] ∧
          (∀ (cache : List FP) (fs : Disk), mkdir_p_go cache [] fs = .ok (cache, fs, []))) := by
  have base : ∀ (cache : List FP) (fs : Disk), mkdir_p_go cache [] fs = .ok (cache, fs, []) := by
    intro cache fs
    rw [mkdir_p_go]
    simp
  refine ⟨base, fun fs => base [] fs, ?_⟩
  intro zs x h hfold
  refine ⟨?_, base⟩
  simp [zsFolder, h, hfold, fpDirname, Bind.bind, Except.bind]

/-- Witness for C10 at a concrete root-level file entry. -/
theorem mkdir_p_empty_is_noop_witness :
    zsFolder ⟨0, "file.txt", 3, 0⟩ = .ok [] ∧ mkdir_p [] [] = .ok ([], [], []) :=
  ⟨(mkdir_p_empty_is_noop.2.2 ⟨0, "file.txt", 3, 0⟩ "file.txt" rfl rfl).1,
   mkdir_p_empty_is_noop.2.1 []⟩

/-! ## C4 — the short-extension temp-name function -/

/-- `splitLastDot` finds nothing exactly when there is no dot. -/
theorem splitLastDot_eq_none_iff : ∀ cs : List Char, splitLastDot cs = none ↔ '.' ∉ cs := by
  intro cs
  induction cs with
  | nil => simp [splitLastDot]
  | cons c cs ih =>
    simp only [splitLastDot]
    cases h : splitLastDot cs with
    | some p =>
      have : '.' ∈ cs := by
        by_contra hc
        rw [← ih] at hc
        rw [h] at hc
        cases hc
      simp [this]
    | none =>
      have hcs : '.' ∉ cs := (ih).1 h
      by_cases hc : c = '.'
      · simp [hc]
      · constructor
        · intro _
          simp only [List.mem_cons, not_or]
          exact ⟨fun hh => hc hh.symm, hcs⟩
        · intro _
          exact if_neg hc

/-- `splitLastDot` splits at the last dot. -/
theorem splitLastDot_last : ∀ (stemL extL : List Char), '.' ∉ extL →
    splitLastDot (stemL ++ '.' :: extL) = some (stemL, extL) := by
  intro stemL
  induction stemL with
  | nil =>
    intro extL hnd
    simp [splitLastDot, (splitLastDot_eq_none_iff extL).2 hnd]
  | cons c stemL ih =>
    intro extL hnd
    simp [splitLastDot, ih extL hnd]

/-- A nonempty run of slash-free characters is one component. -/
theorem splitSlash_single : ∀ (cs acc : List Char), (∀ c ∈ cs, c ≠ '/') →
    (acc ≠ [] ∨ cs ≠ []) →
    splitSlash cs acc = [String.mk (acc.reverse ++ cs)] := by
  intro cs
  induction cs with
  | nil =>
    intro acc _ hne
    have hacc : acc ≠ [] := by rcases hne with h | h; exact h; exact absurd rfl h
    simp [splitSlash, hacc]
  | cons c cs ih =>
    intro acc hns _
    have hc : c ≠ '/' := hns c (List.mem_cons_self c cs)
    have := ih (c :: acc) (fun x hx => hns x (List.mem_cons_of_mem c hx))
      (Or.inl (by simp))
    simp only [splitSlash, if_neg hc]
    rw [this]
    simp

/-- Every component produced by the splitting loop is slash-free. -/
theorem splitSlash_comp_no_slash : ∀ (cs acc : List Char), (∀ c ∈ acc, c ≠ '/') →
    ∀ comp ∈ splitSlash cs acc, ∀ c ∈ comp.toList, c ≠ '/' := by
  intro cs
  induction cs with
  | nil =>
    intro acc hacc comp hcomp
    by_cases he : acc.isEmpty
    · simp [splitSlash, he] at hcomp
    · simp only [splitSlash, if_neg he, List.mem_singleton] at hcomp
      subst hcomp
      intro c hc
      exact hacc c (List.mem_reverse.1 hc)
  | cons c cs ih =>
    intro acc hacc comp hcomp
    by_cases hc : c = '/'
    · simp only [splitSlash, if_pos hc] at hcomp
      by_cases he : acc.isEmpty
      · simp only [if_pos he] at hcomp
        exact ih [] (by simp) comp hcomp
      · simp only [if_neg he, List.mem_cons] at hcomp
        rcases hcomp with rfl | hcomp
        · intro x hx; exact hacc x (List.mem_reverse.1 hx)
        · exact ih [] (by simp) comp hcomp
    · simp only [splitSlash, if_neg hc] at hcomp
      exact ih (c :: acc)
        (fun x hx => by rcases List.mem_cons.1 hx with rfl | hx; exact hc; exact hacc x hx)
        comp hcomp

/-- Components of a successfully constructed `FilePath` are slash-free. -/
theorem mkFilePath_comp_no_slash (s : String) (fp : FP) (h : mkFilePath s = .ok fp) :
    ∀ comp ∈ fp, ∀ c ∈ comp.toList, c ≠ '/' := by
  unfold mkFilePath at h
  by_cases h0 : s = ""
  · rw [if_pos h0] at h
    cases h
    simp
  · rw [if_neg h0] at h
    by_cases h1 : starts_with s '/' = true
    · rw [if_pos h1] at h; cases h
    · rw [if_neg h1] at h
      by_cases h2 : s.toList.contains ':' = true
      · rw [if_pos h2] at h; cases h
      · rw [if_neg h2] at h
        by_cases h3 : s.toList.contains '\\' = true
        · rw [if_pos h3] at h; cases h
        · rw [if_neg h3] at h
          cases h
          exact splitSlash_comp_no_slash s.toList [] (by simp)

/-- `add_ext` appends to the last component. -/
theorem fpAddExt_concat : ∀ (l : FP) (y e : String), fpAddExt (l ++ [y]) e = l ++ [y ++ e]
  | [], _, _ => rfl
  | [_], _, _ => rfl
  | a :: b :: t, y, e => by
    show a :: fpAddExt ((b :: t) ++ [y]) e = a :: ((b :: t) ++ [y ++ e])
    rw [fpAddExt_concat (b :: t) y e]

/-- Computation of `split_ext(FilePath)` when the basename splits as
`stem ++ "." ++ ext` at its last dot. -/
theorem split_ext_fp_last (fp : FP) (bn : String) (stemL extL : List Char)
    (hlast : fp.getLast? = some bn) (hbn : bn.toList = stemL ++ '.' :: extL)
    (hnd : '.' ∉ extL) (hns : ∀ c ∈ bn.toList, c ≠ '/') :
    split_ext_fp fp = some (fp.dropLast ++ [String.mk (stemL ++ ['.'])],
                            splitSlash extL []) := by
  have hstem : ∀ c ∈ stemL, c ≠ '/' := by
    intro c hc
    exact hns c (by rw [hbn]; exact List.mem_append.2 (Or.inl hc))
  have hsld : splitLastDot bn.toList = some (stemL, extL) := by
    rw [hbn]; exact splitLastDot_last stemL extL hnd
  have h2 : splitSlash (String.mk stemL ++ ("." : String)).toList [] =
      [String.mk (stemL ++ ['.'])] := by
    rw [show (String.mk stemL ++ ("." : String)).toList = stemL ++ ['.'] from rfl]
    rw [splitSlash_single (stemL ++ ['.']) []
      (by
        intro c hc
        rcases List.mem_append.1 hc with hc | hc
        · exact hstem c hc
        · simp at hc; subst hc; decide)
      (Or.inr (by simp))]
    simp
  simp only [split_ext_fp, split_ext_s, hlast, hsld]
  rw [h2]
  rfl

/-- C4 (amended): the temp-name function of `short_exts` mode leaves a name
unchanged when the path has no components, when the basename has no dot,
when the basename is a dotfile (starts with `'.'` and has no further dot —
whatever the length of what follows), or when the extension after the last
dot has at most three characters; in the remaining case (nonempty stem and
extension longer than three characters — including basenames that start
with `'.'` but contain a later dot) the extension is replaced by the
three-character hash `ext3`. -/
theorem get_tmp_name_characterization (input : String) (fp : FP)
    (h : mkFilePath input = .ok fp) :
    (fp = [] → get_tmp_name_se input = .ok input)
    ∧ (∀ bn, fp.getLast? = some bn → '.' ∉ bn.toList →
        get_tmp_name_se input = .ok input)
    ∧ (∀ bn extL, fp.getLast? = some bn → bn.toList = '.' :: extL → '.' ∉ extL →
        get_tmp_name_se input = .ok input)
    ∧ (∀ bn stemL extL, fp.getLast? = some bn → bn.toList = stemL ++ '.' :: extL →
        '.' ∉ extL → extL.length ≤ 3 →
        get_tmp_name_se input = .ok input)
    ∧ (∀ bn stemL extL, fp.getLast? = some bn → bn.toList = stemL ++ '.' :: extL →
        '.' ∉ extL → stemL ≠ [] → 3 < extL.length →
        get_tmp_name_se input = .ok (pathStr (fp.dropLast ++
          [String.mk stemL ++ "." ++ ext3 (String.mk extL)]))) := by
  have hns : ∀ comp ∈ fp, ∀ c ∈ comp.toList, c ≠ '/' := mkFilePath_comp_no_slash input fp h
  refine ⟨?_, ?_, ?_, ?_, ?_⟩
  · intro hfp
    subst hfp
    simp [get_tmp_name_se, h, Bind.bind, Except.bind, Pure.pure, Except.pure, split_ext_fp]
  · intro bn hlast hdot
    have hsld : splitLastDot bn.toList = none := (splitLastDot_eq_none_iff bn.toList).2 hdot
    have hsome : split_ext_fp fp = none := by
      simp only [split_ext_fp, split_ext_s, hlast, hsld]
    simp [get_tmp_name_se, h, Bind.bind, Except.bind, Pure.pure, Except.pure, hsome]
  · intro bn extL hlast hbn hnd
    have hsplit := split_ext_fp_last fp bn [] extL hlast hbn hnd
      (hns bn (List.mem_of_mem_getLast? hlast))
    have hmk : String.mk ([] ++ ['.']) = ("." : String) := rfl
    rw [hmk] at hsplit
    have hb : fpBasename (fp.dropLast ++ [("." : String)]) = .ok "." := by
      simp [fpBasename, List.getLast?_concat]
    simp [get_tmp_name_se, h, Bind.bind, Except.bind, Pure.pure, Except.pure, hsplit, hb]
  · intro bn stemL extL hlast hbn hnd hlen
    have hsplit := split_ext_fp_last fp bn stemL extL hlast hbn hnd
      (hns bn (List.mem_of_mem_getLast? hlast))
    have hb : fpBasename (fp.dropLast ++ [String.mk (stemL ++ ['.'])]) =
        .ok (String.mk (stemL ++ ['.'])) := by
      simp [fpBasename, List.getLast?_concat]
    have hshort : (pathStr (splitSlash extL [])).length ≤ 3 := by
      by_cases hE : extL = []
      · subst hE; decide
      · rw [splitSlash_single extL []
          (by
            intro c hc
            exact hns bn (List.mem_of_mem_getLast? hlast) c
              (by rw [hbn]; exact List.mem_append.2 (Or.inr (List.mem_cons_of_mem _ hc))))
          (Or.inr hE)]
        simp only [List.reverse_nil, List.nil_append]
        exact hlen
    have hcond : ¬(String.mk (stemL ++ ['.']) ≠ ("." : String) ∧
        (pathStr (splitSlash extL [])).length > 3) := by
      rintro ⟨-, hgt⟩
      omega
    simp only [get_tmp_name_se, h, Bind.bind, Except.bind, hsplit, hb]
    rw [if_neg hcond]
    rfl
  · intro bn stemL extL hlast hbn hnd hstem hlen
    have hsnsl := hns bn (List.mem_of_mem_getLast? hlast)
    have hsplit := split_ext_fp_last fp bn stemL extL hlast hbn hnd hsnsl
    have hb : fpBasename (fp.dropLast ++ [String.mk (stemL ++ ['.'])]) =
        .ok (String.mk (stemL ++ ['.'])) := by
      simp [fpBasename, List.getLast?_concat]
    have hExt : splitSlash extL [] = [String.mk extL] := by
      have hsg := splitSlash_single extL []
        (by
          intro c hc
          exact hsnsl c (by rw [hbn]; exact List.mem_append.2 (Or.inr (List.mem_cons_of_mem _ hc))))
        (Or.inr (by intro hE; rw [hE] at hlen; simp at hlen))
      simpa using hsg
    have hsndS : pathStr [String.mk extL] = String.mk extL := rfl
    have hbne : String.mk (stemL ++ ['.']) ≠ ("." : String) := by
      intro hc
      rw [show ("." : String) = String.mk ['.'] from rfl] at hc
      have heq : stemL ++ ['.'] = ['.'] := by
        have hcg := congrArg String.toList hc
        simpa using hcg
      rcases stemL with _ | ⟨a, as⟩
      · exact hstem rfl
      · simp at heq
    have hlong : (String.mk extL).length > 3 := by
      simpa using hlen
    simp only [get_tmp_name_se, h, Bind.bind, Except.bind, hsplit, hb, hExt, hsndS]
    rw [if_pos ⟨hbne, hlong⟩]
    rw [fpAddExt_concat]
    rfl

/-- C4 counterexample: a name whose basename starts with a dot but also
contains a later dot and a long extension *is* changed by the temp-name
function, contradicting "returns its input unchanged for every name whose
basename starts with '.'". -/
theorem get_tmp_name_dot_basename_changed :
    mkFilePath ".a.longext" = .ok [".a.longext"]
    ∧ starts_with ".a.longext" '.' = true
    ∧ get_tmp_name_se ".a.longext" = .ok ".a.4x9"
    ∧ (".a.4x9" : String) ≠ ".a.longext" :=
  ⟨rfl, rfl, by decide, by decide⟩

/-- Witness for C4 at a concrete renamed input. -/
theorem get_tmp_name_characterization_witness :
    get_tmp_name_se "a/b.longext" = .ok "a/b.4x9" := by
  have h := (get_tmp_name_characterization "a/b.longext" ["a", "b.longext"] rfl).2.2.2.2
    "b.longext" ['b'] "longext".toList rfl (by decide) (by decide) (by decide) (by decide)
  exact h.trans (by decide)

/-! ## Distribution permutation lemmas (towards C1, C7, C8) -/

/-- Appending into one bucket permutes the flattened assignment by the new
indices. -/
theorem flatten_set_perm : ∀ (b : Bkts) (i : Nat) (vs : List Nat), i < b.length →
    ((b.set i (b.getD i [] ++ vs)).flatten).Perm (b.flatten ++ vs) := by
  intro b
  induction b with
  | nil => intro i vs h; simp at h
  | cons x xs ih =>
    intro i vs h
    cases i with
    | zero =>
      simp only [List.getD_cons_zero, List.set_cons_zero, List.flatten_cons]
      rw [List.append_assoc, List.append_assoc]
      exact List.Perm.append_left x List.perm_append_comm
    | succ j =>
      have hj : j < xs.length := by simpa using h
      simp only [List.getD_cons_succ, List.set_cons_succ, List.flatten_cons]
      rw [List.append_assoc]
      exact List.Perm.append_left x (ih j vs hj)

/-- A successful in-bounds bucket push. -/
theorem bpush_ok {b : Bkts} {i : Nat} {vs : List Nat} (h : i < b.length) :
    bpush b i vs = .ok (b.set i (b.getD i [] ++ vs)) := by
  simp [bpush, h]

/-- Flattening `threads` empty buckets gives nothing. -/
theorem flatten_replicate_nil (n : Nat) :
    (List.replicate n ([] : List Nat)).flatten = [] := by
  induction n with
  | zero => rfl
  | succ k ih => simp [List.replicate_succ, ih]

/-- Inserting into a sorted list is a permutation of consing. -/
theorem insertBy_perm (le : α → α → Bool) (x : α) :
    ∀ l : List α, (insertBy le x l).Perm (x :: l) := by
  intro l
  induction l with
  | nil => exact List.Perm.refl _
  | cons y ys ih =>
    simp only [insertBy]
    by_cases h : le x y
    · rw [if_pos h]
    · rw [if_neg h]
      exact (ih.cons y).trans (List.Perm.swap x y ys)

/-- The stand-in for `std::sort` permutes its input. -/
theorem sortBy_perm (le : α → α → Bool) : ∀ l : List α, (sortBy le l).Perm l := by
  intro l
  induction l with
  | nil => exact List.Perm.refl _
  | cons x xs ih => exact (insertBy_perm le x (sortBy le xs)).trans (ih.cons x)

/-- `min_element` over a nonempty list yields an in-range index. -/
theorem min_idx_lt : ∀ l : List Nat, l ≠ [] → min_idx l < l.length
  | [], h => absurd rfl h
  | [_], _ => by simp [min_idx]
  | x :: y :: ys, _ => by
    simp only [min_idx]
    by_cases h : x ≤ list_min (y :: ys)
    · simp [h]
    · rw [if_neg h]
      have hlt := min_idx_lt (y :: ys) (by simp)
      simpa using Nat.succ_lt_succ hlt

/-- The cyclic loop succeeds for `threads ≥ 1` and emits exactly each
file's index once, in bucket `count % threads` order. -/
theorem cyclic_go_perm (threads : Nat) (ht : 1 ≤ threads) :
    ∀ (fs : List ZipStatR) (count : Nat) (b : Bkts), b.length = threads →
      ∃ b', cyclic_go threads fs count b = .ok b' ∧ b'.length = threads ∧
        b'.flatten.Perm (b.flatten ++ fs.map ZipStatR.index) := by
  intro fs
  induction fs with
  | nil => intro count b hb; exact ⟨b, rfl, hb, by simp⟩
  | cons zs rest ih =>
    intro count b hb
    have hlt : count % threads < b.length := by rw [hb]; exact Nat.mod_lt _ (by omega)
    obtain ⟨b', h1, h2, h3⟩ := ih (count + 1)
      (b.set (count % threads) (b.getD (count % threads) [] ++ [zs.index])) (by simp [hb])
    refine ⟨b', ?_, h2, ?_⟩
    · simp only [cyclic_go, bpush_ok hlt, Bind.bind, Except.bind]
      exact h1
    · refine h3.trans ?_
      simp only [List.map_cons]
      rw [show (zs.index :: rest.map ZipStatR.index : List Nat)
            = [zs.index] ++ rest.map ZipStatR.index from rfl, ← List.append_assoc]
      exact (flatten_set_perm b (count % threads) [zs.index] hlt).append_right _

/-- `distribution_cyclic` emits a permutation of the input indices. -/
theorem distribution_cyclic_ok_perm (threads : Nat) (files : List ZipStatR) (res : Bkts)
    (ht : 1 ≤ threads) (h : distribution_cyclic threads files = .ok res) :
    res.flatten.Perm (files.map ZipStatR.index) := by
  obtain ⟨b', h1, -, h3⟩ :=
    cyclic_go_perm threads ht files 0 (List.replicate threads []) (by simp)
  rw [distribution_cyclic, h1] at h
  injection h with h
  subst h
  simpa [flatten_replicate_nil] using h3

/-- The shared greedy loop succeeds for `threads ≥ 1` and emits exactly the
items' index lists. -/
theorem greedy_go_perm (threads : Nat) (ht : 1 ≤ threads) :
    ∀ (items : List (List Nat × Nat)) (b : Bkts) (totals : List Nat),
      b.length = threads → totals.length = threads →
      ∃ b', greedy_go threads items b totals = .ok b' ∧ b'.length = threads ∧
        b'.flatten.Perm (b.flatten ++ (items.map Prod.fst).flatten) := by
  intro items
  induction items with
  | nil => intro b totals hb _; exact ⟨b, rfl, hb, by simp⟩
  | cons it rest ih =>
    intro b totals hb htot
    obtain ⟨idxs, w⟩ := it
    have hne : totals ≠ [] := by
      intro hc; rw [hc] at htot; simp at htot; omega
    have hwhr : min_idx totals < threads := by rw [← htot]; exact min_idx_lt totals hne
    have hlt : min_idx totals < b.length := by rw [hb]; exact hwhr
    obtain ⟨b', h1, h2, h3⟩ := ih
      (b.set (min_idx totals) (b.getD (min_idx totals) [] ++ idxs))
      (totals.set (min_idx totals) (totals.getD (min_idx totals) 0 + w))
      (by simp [hb]) (by simp [htot])
    refine ⟨b', ?_, h2, ?_⟩
    · simp only [greedy_go, if_neg (by omega : ¬ threads ≤ min_idx totals),
        bpush_ok hlt, Bind.bind, Except.bind]
      exact h1
    · refine h3.trans ?_
      simp only [List.map_cons, List.flatten_cons]
      rw [← List.append_assoc]
      exact (flatten_set_perm b (min_idx totals) idxs hlt).append_right _

/-- Mapping each element to a singleton list and flattening is the map. -/
theorem flatten_map_singleton (g : α → Nat) :
    ∀ l : List α, ((l.map (fun z => ([g z] : List Nat)))).flatten = l.map g := by
  intro l
  induction l with
  | nil => rfl
  | cons x xs ih => simp [ih]

/-- `distribution_bytes` emits a permutation of the input indices. -/
theorem distribution_bytes_ok_perm (threads : Nat) (files : List ZipStatR) (res : Bkts)
    (ht : 1 ≤ threads) (h : distribution_bytes threads files = .ok res) :
    res.flatten.Perm (files.map ZipStatR.index) := by
  simp only [distribution_bytes] at h
  obtain ⟨b', h1, -, h3⟩ := greedy_go_perm threads ht
    ((sortBy by_size_desc_le files).map (fun zs => ([zs.index], zs.size)))
    (List.replicate threads []) (List.replicate threads 0) (by simp) (by simp)
  rw [h1] at h
  injection h with h
  subst h
  refine (h3.trans ?_)
  rw [flatten_replicate_nil]
  simp only [List.map_map, List.nil_append]
  rw [show ((fun p => p.1) ∘ fun zs : ZipStatR => (([zs.index] : List Nat), zs.size))
        = fun zs : ZipStatR => ([zs.index] : List Nat) from rfl]
  rw [flatten_map_singleton ZipStatR.index (sortBy by_size_desc_le files)]
  exact (sortBy_perm by_size_desc_le files).map ZipStatR.index

/-- `distribution_runtime` emits a permutation of the input indices. -/
theorem distribution_runtime_ok_perm (threads : Nat) (files : List ZipStatR) (res : Bkts)
    (ht : 1 ≤ threads) (h : distribution_runtime threads files = .ok res) :
    res.flatten.Perm (files.map ZipStatR.index) := by
  simp only [distribution_runtime] at h
  obtain ⟨b', h1, -, h3⟩ := greedy_go_perm threads ht
    ((sortBy by_size_desc_le files).map (fun zs => ([zs.index], runtime_weight zs)))
    (List.replicate threads []) (List.replicate threads 0) (by simp) (by simp)
  rw [h1] at h
  injection h with h
  subst h
  refine (h3.trans ?_)
  rw [flatten_replicate_nil]
  simp only [List.map_map, List.nil_append]
  rw [show ((fun p => p.1) ∘ fun zs : ZipStatR => (([zs.index] : List Nat), runtime_weight zs))
        = fun zs : ZipStatR => ([zs.index] : List Nat) from rfl]
  rw [flatten_map_singleton ZipStatR.index (sortBy by_size_desc_le files)]
  exact (sortBy_perm by_size_desc_le files).map ZipStatR.index

/-- Ordered-map insertion adds exactly the new file's index to the
aggregated folder index lists. -/
theorem mapAdd_perm : ∀ (m : List (FP × FolderData)) (k : FP) (zs : ZipStatR),
    ((mapAdd m k zs).map (fun p => p.2.idxs)).flatten.Perm
      ((m.map (fun p => p.2.idxs)).flatten ++ [zs.index]) := by
  intro m k zs
  induction m with
  | nil => exact List.Perm.refl _
  | cons hd rest ih =>
    obtain ⟨k1, d⟩ := hd
    simp only [mapAdd]
    by_cases h1 : fpLt k k1
    · rw [if_pos h1]
      simp only [List.map_cons, List.flatten_cons, fdAdd]
      exact List.perm_append_comm
    · rw [if_neg h1]
      by_cases h2 : k = k1
      · rw [if_pos h2]
        simp only [List.map_cons, List.flatten_cons, fdAdd]
        rw [List.append_assoc, List.append_assoc]
        exact List.Perm.append_left d.idxs List.perm_append_comm
      · rw [if_neg h2]
        simp only [List.map_cons, List.flatten_cons]
        rw [List.append_assoc]
        exact List.Perm.append_left d.idxs ih

/-- The folder aggregation emits exactly the files' indices across all
folder records. -/
theorem buildFolderMap_perm :
    ∀ (fs : List ZipStatR) (m m' : List (FP × FolderData)),
      buildFolderMap fs m = .ok m' →
      ((m'.map (fun p => p.2.idxs)).flatten).Perm
        ((m.map (fun p => p.2.idxs)).flatten ++ fs.map ZipStatR.index) := by
  intro fs
  induction fs with
  | nil =>
    intro m m' h
    injection h with h
    subst h
    simp
  | cons zs rest ih =>
    intro m m' h
    cases hf : zsFolder zs with
    | error e =>
      simp only [buildFolderMap, hf, Bind.bind, Except.bind] at h
      exact Except.noConfusion h
    | ok f =>
      simp only [buildFolderMap, hf, Bind.bind, Except.bind] at h
      refine (ih (mapAdd m f zs) m' h).trans ?_
      refine ((mapAdd_perm m f zs).append_right _).trans ?_
      rw [List.append_assoc]
      simp only [List.map_cons]
      exact List.Perm.refl _

/-- `distribution_folder_runtime` emits a permutation of the input
indices. -/
theorem distribution_folder_runtime_ok_perm (threads : Nat) (files : List ZipStatR)
    (res : Bkts) (ht : 1 ≤ threads)
    (h : distribution_folder_runtime threads files = .ok res) :
    res.flatten.Perm (files.map ZipStatR.index) := by
  simp only [distribution_folder_runtime, Bind.bind, Except.bind] at h
  cases hm : buildFolderMap files [] with
  | error e => rw [hm] at h; exact Except.noConfusion h
  | ok m =>
    rw [hm] at h
    obtain ⟨b', h1, -, h3⟩ := greedy_go_perm threads ht
      ((sortBy by_metric_desc_le (m.map Prod.snd)).map (fun d => (d.idxs, d.metric)))
      (List.replicate threads []) (List.replicate threads 0) (by simp) (by simp)
    have hbe : Except.ok b' = Except.ok res := h1.symm.trans h
    injection hbe with hbe
    subst hbe
    refine h3.trans ?_
    rw [flatten_replicate_nil]
    simp only [List.map_map, List.nil_append]
    rw [show ((fun p => p.1) ∘ fun d : FolderData => (d.idxs, d.metric))
        = fun d : FolderData => d.idxs from rfl]
    have hs : ((sortBy by_metric_desc_le (m.map Prod.snd)).map
        (fun d : FolderData => d.idxs)).flatten.Perm
        (((m.map Prod.snd).map (fun d : FolderData => d.idxs)).flatten) :=
      ((sortBy_perm by_metric_desc_le (m.map Prod.snd)).map _).flatten
    refine hs.trans ?_
    have hb := buildFolderMap_perm files [] m hm
    simpa [List.map_map] using hb

/-- The sliced loop succeeds when each target is in range and emits exactly
each file's index once. -/
theorem sliced_go_perm (threads chunk slicedEnd : Nat) (ht : 1 ≤ threads)
    (hc : 1 ≤ chunk) (hse : slicedEnd ≤ chunk * threads) :
    ∀ (fs : List ZipStatR) (count : Nat) (b : Bkts), b.length = threads →
      ∃ b', sliced_go threads chunk slicedEnd fs count b = .ok b' ∧
        b'.length = threads ∧
        b'.flatten.Perm (b.flatten ++ fs.map ZipStatR.index) := by
  intro fs
  induction fs with
  | nil => intro count b hb; exact ⟨b, rfl, hb, by simp⟩
  | cons zs rest ih =>
    intro count b hb
    have hwr : (if count < slicedEnd then count / chunk else count % threads) < threads := by
      by_cases hcnt : count < slicedEnd
      · rw [if_pos hcnt]
        have hlt2 : count < threads * chunk := by
          calc count < slicedEnd := hcnt
            _ ≤ chunk * threads := hse
            _ = threads * chunk := Nat.mul_comm chunk threads
        exact (Nat.div_lt_iff_lt_mul (by omega)).2 hlt2
      · rw [if_neg hcnt]
        exact Nat.mod_lt _ (by omega)
    have hlt : (if count < slicedEnd then count / chunk else count % threads) < b.length := by
      rw [hb]; exact hwr
    obtain ⟨b', h1, h2, h3⟩ := ih (count + 1)
      (b.set (if count < slicedEnd then count / chunk else count % threads)
        (b.getD (if count < slicedEnd then count / chunk else count % threads) [] ++ [zs.index]))
      (by simp [hb])
    refine ⟨b', ?_, h2, ?_⟩
    · simp only [sliced_go, if_neg (by omega : ¬ threads ≤
        (if count < slicedEnd then count / chunk else count % threads)),
        bpush_ok hlt, Bind.bind, Except.bind]
      exact h1
    · refine h3.trans ?_
      simp only [List.map_cons]
      rw [show (zs.index :: rest.map ZipStatR.index : List Nat)
            = [zs.index] ++ rest.map ZipStatR.index from rfl, ← List.append_assoc]
      exact (flatten_set_perm b _ [zs.index] hlt).append_right _

/-- `distribution_sliced` emits a permutation of the input indices whenever
it succeeds. -/
theorem distribution_sliced_ok_perm (threads : Nat) (files : List ZipStatR) (res : Bkts)
    (ht : 1 ≤ threads) (h : distribution_sliced threads files = .ok res) :
    res.flatten.Perm (files.map ZipStatR.index) := by
  have hc : 1 ≤ max ((sortBy by_name_le files).length / threads) 1 := Nat.le_max_right _ 1
  have hse : (sortBy by_name_le files).length
        - (sortBy by_name_le files).length % threads
      ≤ max ((sortBy by_name_le files).length / threads) 1 * threads := by
    have hmod := Nat.mod_add_div (sortBy by_name_le files).length threads
    have h1 : (sortBy by_name_le files).length
        - (sortBy by_name_le files).length % threads
        = threads * ((sortBy by_name_le files).length / threads) := by omega
    rw [h1, Nat.mul_comm]
    exact Nat.mul_le_mul_right threads (Nat.le_max_left _ _)
  simp only [distribution_sliced] at h
  split at h
  · exact Except.noConfusion h
  · split at h
    · exact Except.noConfusion h
    · split at h
      · exact Except.noConfusion h
      · split at h
        · exact Except.noConfusion h
        · obtain ⟨b', h1, -, h3⟩ := sliced_go_perm threads
            (max ((sortBy by_name_le files).length / threads) 1)
            ((sortBy by_name_le files).length
              - (sortBy by_name_le files).length % threads)
            ht hc hse (sortBy by_name_le files) 0 (List.replicate threads []) (by simp)
          rw [h1] at h
          injection h with h
          subst h
          refine h3.trans ?_
          rw [flatten_replicate_nil]
          simp only [List.nil_append]
          exact (sortBy_perm by_name_le files).map ZipStatR.index

/-! ## The wrapper's post-conditions (towards C1) -/

/-- The duplicate scan succeeds exactly when the walked indices are
duplicate-free and disjoint from the already-seen set. -/
theorem check_dups_ok_iff : ∀ (xs seen : List Nat),
    check_dups seen xs = .ok () ↔ (xs.Nodup ∧ ∀ x ∈ xs, x ∉ seen) := by
  intro xs
  induction xs with
  | nil => intro seen; simp [check_dups]
  | cons x rest ih =>
    intro seen
    simp only [check_dups]
    by_cases h : x ∈ seen
    · rw [if_pos h]
      constructor
      · intro hc; exact Except.noConfusion hc
      · rintro ⟨-, hall⟩
        exact absurd h (hall x (List.mem_cons_self x rest))
    · rw [if_neg h]
      rw [ih (x :: seen)]
      constructor
      · rintro ⟨hnd, hall⟩
        refine ⟨List.nodup_cons.2 ⟨?_, hnd⟩, ?_⟩
        · intro hx
          exact (hall x hx) (List.mem_cons_self x seen)
        · intro y hy
          rcases List.mem_cons.1 hy with rfl | hy2
          · exact h
          · exact fun hs => (hall y hy2) (List.mem_cons_of_mem x hs)
      · rintro ⟨hnd, hall⟩
        refine ⟨(List.nodup_cons.1 hnd).2, ?_⟩
        intro y hy hmem
        rcases List.mem_cons.1 hmem with rfl | hs
        · exact (List.nodup_cons.1 hnd).1 hy
        · exact (hall y (List.mem_cons_of_mem x hy)) hs

/-- Whatever `wrapper` returns came from the strategy and passed both
post-conditions: total emitted count equals `files.size()` and no index
appears twice. -/
theorem wrapper_ok_elim {t : Nat} {f : List ZipStatR}
    {g : Nat → List ZipStatR → Except String Bkts} {r : Bkts}
    (h : wrapper t f g = .ok r) :
    g t f = .ok r ∧ (r.map List.length).sum = f.length ∧ r.flatten.Nodup := by
  cases hg : g t f with
  | error e =>
    simp only [wrapper, hg, Bind.bind, Except.bind] at h
    exact Except.noConfusion h
  | ok tis =>
    simp only [wrapper, hg, Bind.bind, Except.bind] at h
    by_cases hcnt : (tis.map List.length).sum ≠ f.length
    · rw [if_pos hcnt] at h
      exact Except.noConfusion h
    · rw [if_neg hcnt] at h
      cases hd : check_dups [] tis.flatten with
      | error e =>
        simp only [hd, Bind.bind, Except.bind] at h
        exact Except.noConfusion h
      | ok u =>
        cases u
        simp only [hd, Bind.bind, Except.bind, Pure.pure, Except.pure] at h
        have hnd := (check_dups_ok_iff tis.flatten []).1 hd
        injection h with h
        subst h
        exact ⟨rfl, not_ne_iff.1 hcnt, hnd.1⟩

/-- The wrapper fails whenever the strategy's output violates either
post-condition. -/
theorem wrapper_error_of_violation (t : Nat) (f : List ZipStatR)
    (g : Nat → List ZipStatR → Except String Bkts) (tis : Bkts)
    (hg : g t f = .ok tis)
    (hbad : (tis.map List.length).sum ≠ f.length ∨ ¬ tis.flatten.Nodup) :
    ∃ e, wrapper t f g = .error e := by
  simp only [wrapper, hg, Bind.bind, Except.bind]
  by_cases hcnt : (tis.map List.length).sum ≠ f.length
  · rw [if_pos hcnt]
    exact ⟨_, rfl⟩
  · rw [if_neg hcnt]
    have hnodup : ¬ tis.flatten.Nodup := by
      rcases hbad with hb | hb
      · exact absurd hb hcnt
      · exact hb
    cases hd : check_dups [] tis.flatten with
    | ok u =>
      cases u
      exact absurd ((check_dups_ok_iff tis.flatten []).1 hd).1 hnodup
    | error e =>
      simp only [hd]
      exact ⟨e, rfl⟩

/-- C1 (amended): whenever invoking a registered strategy through the
common wrapper returns a result (the strategy itself can throw first —
`sliced` does on an empty file list), the concatenation of the returned
index lists is a permutation of the files' indices and contains no
duplicates; and the wrapper fails whenever the total emitted count differs
from the number of files or any index appears twice across (or within)
the lists. -/
theorem registered_strategies_partition :
    (∀ (name : String) (S : StratFn), (name, S) ∈ distribute →
      ∀ (J : Nat) (files : List ZipStatR) (res : Bkts), 1 ≤ J →
        S J files = .ok res →
        res.flatten.Perm (files.map ZipStatR.index) ∧ res.flatten.Nodup)
    ∧ (∀ (J : Nat) (files : List ZipStatR)
        (func : Nat → List ZipStatR → Except String Bkts) (tis : Bkts),
        func J files = .ok tis →
        ((tis.map List.length).sum ≠ files.length ∨ ¬ tis.flatten.Nodup) →
        ∃ e, wrapper J files func = .error e) := by
  constructor
  · intro name S hmem J files res hJ hres
    simp only [distribute, List.mem_cons, List.mem_singleton, Prod.mk.injEq,
      List.not_mem_nil, or_false] at hmem
    rcases hmem with ⟨-, rfl⟩ | ⟨-, rfl⟩ | ⟨-, rfl⟩ | ⟨-, rfl⟩ | ⟨-, rfl⟩
    · simp only [wrap_bytes] at hres
      obtain ⟨hg, -, hnd⟩ := wrapper_ok_elim hres
      exact ⟨distribution_bytes_ok_perm J files res hJ hg, hnd⟩
    · simp only [wrap_cyclic] at hres
      obtain ⟨hg, -, hnd⟩ := wrapper_ok_elim hres
      exact ⟨distribution_cyclic_ok_perm J files res hJ hg, hnd⟩
    · simp only [wrap_folder_runtime] at hres
      obtain ⟨hg, -, hnd⟩ := wrapper_ok_elim hres
      exact ⟨distribution_folder_runtime_ok_perm J files res hJ hg, hnd⟩
    · simp only [wrap_runtime] at hres
      obtain ⟨hg, -, hnd⟩ := wrapper_ok_elim hres
      exact ⟨distribution_runtime_ok_perm J files res hJ hg, hnd⟩
    · simp only [wrap_sliced] at hres
      obtain ⟨hg, -, hnd⟩ := wrapper_ok_elim hres
      exact ⟨distribution_sliced_ok_perm J files res hJ hg, hnd⟩
  · intro J files func tis hfunc hbad
    exact wrapper_error_of_violation J files func tis hfunc hbad

/-- C1 counterexample: the registered `sliced` strategy, invoked through
the wrapper with `J = 2` on the empty file list (trivially distinct
indices), does not return a partition at all — its own sanity check
`FAIL_( chunk > stats.size() )` throws, because `chunk` is clamped to 1
while `stats.size() = 0`. -/
theorem registered_sliced_fails_on_empty :
    wrap_sliced 2 [] = .error "chunk > stats.size()" := by decide

/-- Witness for C1 at the registered `cyclic` strategy on two files. -/
theorem registered_strategies_partition_witness :
    ([[0], [1]] : Bkts).flatten.Perm
        (([⟨0, "a/x", 10, 0⟩, ⟨1, "b/y", 20, 0⟩] : List ZipStatR).map ZipStatR.index)
      ∧ ([[0], [1]] : Bkts).flatten.Nodup :=
  registered_strategies_partition.1 "cyclic" wrap_cyclic
    (List.Mem.tail _ (List.Mem.head _)) 2 [⟨0, "a/x", 10, 0⟩, ⟨1, "b/y", 20, 0⟩]
    [[0], [1]] (by omega) (by decide)

/-! ## C7 — the sliced strategy -/

/-- The sliced worker target is always in range when `threads ≥ 1`,
`chunk ≥ 1` and `sliced_end ≤ chunk * threads`. -/
theorem sliced_target_lt (threads chunk slicedEnd count : Nat) (ht : 1 ≤ threads)
    (hc : 1 ≤ chunk) (hse : slicedEnd ≤ chunk * threads) :
    (if count < slicedEnd then count / chunk else count % threads) < threads := by
  by_cases hcnt : count < slicedEnd
  · rw [if_pos hcnt]
    have hlt2 : count < threads * chunk := by
      calc count < slicedEnd := hcnt
        _ ≤ chunk * threads := hse
        _ = threads * chunk := Nat.mul_comm chunk threads
    exact (Nat.div_lt_iff_lt_mul (by omega)).2 hlt2
  · rw [if_neg hcnt]
    exact Nat.mod_lt _ (by omega)

/-- `getD` after a bucket update. -/
theorem getD_set_bucket : ∀ (b : Bkts) (i w : Nat) (v : List Nat), i < b.length →
    (b.set i v).getD w [] = if w = i then v else b.getD w [] := by
  intro b
  induction b with
  | nil => intro i w v h; simp at h
  | cons x xs ih =>
    intro i w v h
    cases i with
    | zero =>
      cases w with
      | zero => simp
      | succ j => simp
    | succ i1 =>
      cases w with
      | zero => simp
      | succ j =>
        have h1 : i1 < xs.length := by simpa using h
        simp only [List.set_cons_succ, List.getD_cons_succ]
        rw [ih i1 j v h1]
        simp

/-- `getD` of replicated empty buckets. -/
theorem getD_replicate_nil : ∀ (n w : Nat), (List.replicate n ([] : List Nat)).getD w [] = [] := by
  intro n
  induction n with
  | zero => intro w; cases w <;> rfl
  | succ k ih => intro w; cases w <;> simp [List.replicate_succ, ih]

/-- Bucket-level characterization of the sliced loop: worker `w` receives,
in order, the indices of exactly the positions `k` whose target
`(k < sliced_end ? k / chunk : k % threads)` is `w`. -/
theorem sliced_go_bucket (threads chunk slicedEnd : Nat) (ht : 1 ≤ threads)
    (hc : 1 ≤ chunk) (hse : slicedEnd ≤ chunk * threads) :
    ∀ (fs : List ZipStatR) (count : Nat) (b res : Bkts), b.length = threads →
      sliced_go threads chunk slicedEnd fs count b = .ok res →
      ∀ w, w < threads →
        res.getD w [] = b.getD w [] ++
          ((List.enumFrom count fs).filter
            (fun p => decide
              ((if p.1 < slicedEnd then p.1 / chunk else p.1 % threads) = w))).map
            (fun p => p.2.index) := by
  intro fs
  induction fs with
  | nil =>
    intro count b res hb h w hw
    injection h with h
    subst h
    simp [List.enumFrom]
  | cons zs rest ih =>
    intro count b res hb h w hw
    have hwr := sliced_target_lt threads chunk slicedEnd count ht hc hse
    have hlt : (if count < slicedEnd then count / chunk else count % threads) < b.length := by
      rw [hb]; exact hwr
    rw [show sliced_go threads chunk slicedEnd (zs :: rest) count b
        = sliced_go threads chunk slicedEnd rest (count + 1)
            (b.set (if count < slicedEnd then count / chunk else count % threads)
              (b.getD (if count < slicedEnd then count / chunk else count % threads) []
                ++ [zs.index])) from by
      simp only [sliced_go, if_neg (by omega : ¬ threads ≤
          (if count < slicedEnd then count / chunk else count % threads)),
        bpush_ok hlt, Bind.bind, Except.bind]] at h
    have hres := ih (count + 1) _ res (by simp [hb]) h w hw
    rw [hres, getD_set_bucket b _ w _ hlt, List.enumFrom_cons]
    by_cases hcw : (if count < slicedEnd then count / chunk else count % threads) = w
    · rw [if_pos hcw.symm]
      rw [show ((count, zs) :: List.enumFrom (count + 1) rest).filter
            (fun p => decide ((if p.1 < slicedEnd then p.1 / chunk else p.1 % threads) = w))
          = (count, zs) :: (List.enumFrom (count + 1) rest).filter
            (fun p => decide ((if p.1 < slicedEnd then p.1 / chunk else p.1 % threads) = w))
          from by simp [List.filter_cons, hcw]]
      simp only [List.map_cons]
      rw [List.append_assoc, hcw, List.singleton_append]
    · rw [if_neg (fun hh => hcw hh.symm)]
      rw [show ((count, zs) :: List.enumFrom (count + 1) rest).filter
            (fun p => decide ((if p.1 < slicedEnd then p.1 / chunk else p.1 % threads) = w))
          = (List.enumFrom (count + 1) rest).filter
            (fun p => decide ((if p.1 < slicedEnd then p.1 / chunk else p.1 % threads) = w))
          from by simp [List.filter_cons, hcw]]

/-- C7 (amended): for every `J ≥ 1` and every *nonempty* file list,
`sliced` sorts a copy by name ascending and assigns the `k`-th sorted file
to worker `k / chunk` when `k < sliced_end` and to worker `k mod J`
otherwise (with `chunk = max(len/J, 1)`, `sliced_end = len - len % J`);
on the empty list the strategy fails its own sanity check instead. The
spec's S2 example yields `[[0, 1, 4], [2, 3]]`. -/
theorem sliced_strategy_characterization :
    (∀ (J : Nat) (files : List ZipStatR), 1 ≤ J → files ≠ [] →
      ∃ res, distribution_sliced J files = .ok res ∧ res.length = J ∧
        ∀ w, w < J → res.getD w [] =
          ((List.enumFrom 0 (sortBy by_name_le files)).filter
            (fun p => decide
              ((if p.1 < (sortBy by_name_le files).length
                    - (sortBy by_name_le files).length % J
                then p.1 / max ((sortBy by_name_le files).length / J) 1
                else p.1 % J) = w))).map (fun p => p.2.index))
    ∧ distribution_sliced 2
        [⟨0, "a/1", 7, 0⟩, ⟨1, "a/2", 7, 0⟩, ⟨2, "b/1", 7, 0⟩, ⟨3, "b/2", 7, 0⟩,
         ⟨4, "c/1", 7, 0⟩] = .ok [[0, 1, 4], [2, 3]] := by
  constructor
  · intro J files hJ hne
    have hlen : (sortBy by_name_le files).length = files.length :=
      (sortBy_perm by_name_le files).length_eq
    have hL : 1 ≤ (sortBy by_name_le files).length := by
      rw [hlen]
      rcases files with _ | ⟨x, xs⟩
      · exact absurd rfl hne
      · simp
    have hc : 1 ≤ max ((sortBy by_name_le files).length / J) 1 := Nat.le_max_right _ 1
    have hse : (sortBy by_name_le files).length - (sortBy by_name_le files).length % J
        ≤ max ((sortBy by_name_le files).length / J) 1 * J := by
      have hmod := Nat.mod_add_div (sortBy by_name_le files).length J
      have h1 : (sortBy by_name_le files).length - (sortBy by_name_le files).length % J
          = J * ((sortBy by_name_le files).length / J) := by omega
      rw [h1, Nat.mul_comm]
      exact Nat.mul_le_mul_right J (Nat.le_max_left _ _)
    have hg2 : ¬ (sortBy by_name_le files).length
        < max ((sortBy by_name_le files).length / J) 1 := by
      have hd : (sortBy by_name_le files).length / J ≤ (sortBy by_name_le files).length :=
        Nat.div_le_self _ _
      omega
    have hg3 : ¬ J < (sortBy by_name_le files).length % J := by
      have := Nat.mod_lt (sortBy by_name_le files).length (show 0 < J by omega)
      omega
    have hg4 : ¬ (sortBy by_name_le files).length
        < (sortBy by_name_le files).length - (sortBy by_name_le files).length % J := by
      omega
    obtain ⟨res, h1, h2, h3⟩ := sliced_go_perm J
      (max ((sortBy by_name_le files).length / J) 1)
      ((sortBy by_name_le files).length - (sortBy by_name_le files).length % J)
      hJ hc hse (sortBy by_name_le files) 0 (List.replicate J []) (by simp)
    refine ⟨res, ?_, h2, ?_⟩
    · simp only [distribution_sliced]
      rw [if_neg (by omega : ¬ max ((sortBy by_name_le files).length / J) 1 < 1),
          if_neg hg2, if_neg hg3, if_neg hg4]
      exact h1
    · intro w hw
      have hb := sliced_go_bucket J (max ((sortBy by_name_le files).length / J) 1)
        ((sortBy by_name_le files).length - (sortBy by_name_le files).length % J)
        hJ hc hse (sortBy by_name_le files) 0 (List.replicate J []) res (by simp) h1 w hw
      rw [hb, getD_replicate_nil]
      simp
  · decide

/-- C7 counterexample: on the empty file list `sliced` does not sort and
assign at all — `FAIL_( chunk > stats.size() )` fires, since `chunk` is
clamped to 1 while there are 0 files. -/
theorem distribution_sliced_empty_fails :
    distribution_sliced 2 [] = .error "chunk > stats.size()" := rfl

/-- Witness for C7 at a concrete nonempty input. -/
theorem sliced_strategy_characterization_witness :
    ∃ res, distribution_sliced 1 [⟨5, "only", 9, 0⟩] = .ok res ∧ res.length = 1 ∧
      ∀ w, w < 1 → res.getD w [] =
        ((List.enumFrom 0 (sortBy by_name_le [⟨5, "only", 9, 0⟩])).filter
          (fun p => decide
            ((if p.1 < (sortBy by_name_le [(⟨5, "only", 9, 0⟩ : ZipStatR)]).length
                  - (sortBy by_name_le [(⟨5, "only", 9, 0⟩ : ZipStatR)]).length % 1
              then p.1 / max ((sortBy by_name_le [(⟨5, "only", 9, 0⟩ : ZipStatR)]).length / 1) 1
              else p.1 % 1) = w))).map (fun p => p.2.index) :=
  sliced_strategy_characterization.1 1 [⟨5, "only", 9, 0⟩] (by omega) (by decide)

/-! ## C8 — the bytes strategy refines the spec's wording -/

/-- `std::min_element`'s index is the first index of the minimum. -/
theorem min_idx_eq_argmin_spec : ∀ t : List Nat, t ≠ [] → min_idx t = argmin_spec t
  | [], h => absurd rfl h
  | [x], _ => by
    simp [min_idx, argmin_spec, list_min, List.findIdx_cons]
  | x :: y :: ys, _ => by
    simp only [min_idx, argmin_spec, list_min]
    by_cases h : x ≤ list_min (y :: ys)
    · rw [if_pos h]
      rw [Nat.min_eq_left h]
      simp [List.findIdx_cons]
    · rw [if_neg h]
      have hlt : list_min (y :: ys) < x := by omega
      rw [Nat.min_eq_right (Nat.le_of_lt hlt)]
      rw [List.findIdx_cons]
      have hne2 : (x == list_min (y :: ys)) = false := by
        simp
        omega
      rw [hne2]
      simp only [cond_false]
      have := min_idx_eq_argmin_spec (y :: ys) (by simp)
      rw [this, argmin_spec]

/-- The embedded `distribution_bytes` loop computes exactly the spec's
greedy loop. -/
theorem greedy_go_eq_bytes_spec_go (J : Nat) (hJ : 1 ≤ J) :
    ∀ (items : List (Nat × Nat)) (b : Bkts) (t : List Nat),
      b.length = J → t.length = J →
      greedy_go J (items.map (fun p => ([p.1], p.2))) b t
        = .ok (bytes_spec_go items b t).1 := by
  intro items
  induction items with
  | nil => intro b t hb ht; rfl
  | cons p rest ih =>
    intro b t hb htl
    obtain ⟨i, sz⟩ := p
    have hne : t ≠ [] := by intro hc; rw [hc] at htl; simp at htl; omega
    have hm : min_idx t < J := htl ▸ min_idx_lt t hne
    have hma : argmin_spec t = min_idx t := (min_idx_eq_argmin_spec t hne).symm
    have hbl : min_idx t < b.length := by rw [hb]; exact hm
    simp only [List.map_cons, greedy_go, if_neg (by omega : ¬ J ≤ min_idx t),
      bpush_ok hbl, Bind.bind, Except.bind, bytes_spec_go, hma]
    exact ih _ _ (by simp [hb]) (by simp [htl])

/-- C8: `bytes` sorts a copy by size descending and greedily assigns each
file to the worker with the least running byte total (lowest index on
ties), adding the file's size to that total — exactly the spec's wording —
and on sizes `[100, 90, 50, 40, 20]` with `J = 2` the final totals are
`{w0: 160, w1: 140}` (assignment `[[0, 3, 4], [1, 2]]`). -/
theorem bytes_strategy_refines_spec :
    (∀ (J : Nat) (files : List ZipStatR), 1 ≤ J →
      distribution_bytes J files = .ok (bytes_spec J files).1)
    ∧ (bytes_spec 2 [⟨0, "a", 100, 0⟩, ⟨1, "b", 90, 0⟩, ⟨2, "c", 50, 0⟩,
        ⟨3, "d", 40, 0⟩, ⟨4, "e", 20, 0⟩]).2 = [160, 140]
    ∧ (bytes_spec 2 [⟨0, "a", 100, 0⟩, ⟨1, "b", 90, 0⟩, ⟨2, "c", 50, 0⟩,
        ⟨3, "d", 40, 0⟩, ⟨4, "e", 20, 0⟩]).1 = [[0, 3, 4], [1, 2]] := by
  refine ⟨?_, by decide, by decide⟩
  intro J files hJ
  simp only [distribution_bytes, bytes_spec]
  rw [show (sortBy by_size_desc_le files).map (fun zs => (([zs.index] : List Nat), zs.size))
      = ((sortBy by_size_desc_le files).map (fun zs => (zs.index, zs.size))).map
          (fun p => ([p.1], p.2)) from by rw [List.map_map]; rfl]
  exact greedy_go_eq_bytes_spec_go J hJ _ _ _ (by simp) (by simp)

/-- Witness for C8 at a concrete input. -/
theorem bytes_strategy_refines_spec_witness :
    distribution_bytes 1 [⟨0, "a", 7, 0⟩] = .ok (bytes_spec 1 [⟨0, "a", 7, 0⟩]).1 :=
  bytes_strategy_refines_spec.1 1 [⟨0, "a", 7, 0⟩] (by omega)

end PUnzip
